import Mathlib

/-!
Verification of the llmq streaming context synchronization engine.

Shallow embedding of the core subsystems of the llmq CLI
(`src/llmq.cc`, `src/plugins/gpt.cc`):

* the fragment extractor `find_json`,
* the context writer diff algorithm `context_writer::overwrite`,
* the streamed delta merger `gpt::onreply` and finalizer `gpt::onfinish`,
* the single-retry chat driver loop of `main`, and
* the process locator/terminator `kill_ctx`.

Byte strings are modelled as `List Char`; fallible operations return
`Except`/`Option` values mirroring each `throw` site of the source.
-/

namespace Llmq

/-- Mirrors the character loop of `find_json` in `src/plugins/gpt.cc`:
`depth` is the brace nesting depth (a C `int`, so it may go negative),
`sEsc` is the inside-a-double-quoted-string flag, and `acc` holds, in
reverse, the characters scanned since the most recent depth 0 -> 1 opening
brace (`none` while no candidate fragment has begun, mirroring
`begin == npos`).  Inside a string a backslash consumes the following
character (`++i`), an unescaped quote leaves string mode; outside a string
an opening brace increments the depth (recording `begin` at depth 0), a
closing brace decrements it and at depth 1 returns the recorded span, and a
quote enters string mode.  Falling off the end returns the empty view,
modelled as `none`. -/
def find_json_loop : List Char → Int → Bool → Option (List Char) → Option (List Char)
  | [], _, _, _ => none
  | c :: rest, depth, sEsc, acc =>
    if sEsc then
      if c = '\x5c' then
        match rest with
        | [] => none
        | d :: rest2 => find_json_loop rest2 depth sEsc (acc.map (fun a => d :: c :: a))
      else if c = '\x22' then
        find_json_loop rest depth false (acc.map (fun a => c :: a))
      else
        find_json_loop rest depth sEsc (acc.map (fun a => c :: a))
    else
      if c = '\x7b' then
        if depth = 0 then find_json_loop rest (depth + 1) sEsc (some [c])
        else find_json_loop rest (depth + 1) sEsc (acc.map (fun a => c :: a))
      else if c = '\x7d' then
        if depth - 1 = 0 then acc.map (fun a => (c :: a).reverse)
        else find_json_loop rest (depth - 1) sEsc (acc.map (fun a => c :: a))
      else if c = '\x22' then
        find_json_loop rest depth true (acc.map (fun a => c :: a))
      else
        find_json_loop rest depth sEsc (acc.map (fun a => c :: a))

/-- Embedding of `find_json` (`src/plugins/gpt.cc`): extract the first
top-level brace-balanced, quote-aware span of the buffer, or `none` when no
complete fragment is present yet. -/
def find_json (s : List Char) : Option (List Char) :=
  find_json_loop s 0 false none

/-- Scanner-semantics specification of a complete quote-aware brace span,
written from the spec wording for the extractor: the number of characters
consumed, starting in state (`depth`, `inStr`), until the depth first
returns to 0 at an unescaped closing brace outside a string (`none` if that
never happens). -/
def consume_obj : List Char → Int → Bool → Option Nat
  | [], _, _ => none
  | c :: rest, depth, inStr =>
    if inStr then
      if c = '\x5c' then
        match rest with
        | [] => none
        | _ :: rest2 => (consume_obj rest2 depth inStr).map (· + 2)
      else if c = '\x22' then (consume_obj rest depth false).map (· + 1)
      else (consume_obj rest depth inStr).map (· + 1)
    else
      if c = '\x7b' then (consume_obj rest (depth + 1) inStr).map (· + 1)
      else if c = '\x7d' then
        if depth - 1 = 0 then some 1
        else (consume_obj rest (depth - 1) inStr).map (· + 1)
      else if c = '\x22' then (consume_obj rest depth true).map (· + 1)
      else (consume_obj rest depth inStr).map (· + 1)

/-- A brace-balanced, quote-aware top-level JSON object text: it starts with
an opening brace and the scan closes it exactly at its final character. -/
def IsJsonObject (w : List Char) : Prop :=
  w.head? = some '\x7b' ∧ consume_obj w 0 false = some w.length

instance (w : List Char) : Decidable (IsJsonObject w) := by
  unfold IsJsonObject; infer_instance

/-- Positional file write: models `seek_file(_path, _f, off)` followed by
`write_file(_path, _f, data)` on a file whose current contents are `file`.
Writing past the end appends; seeking past the end would zero-fill the gap
(POSIX hole), which never happens in the uses below. -/
def write_at (file : List Char) (off : Nat) (data : List Char) : List Char :=
  file.take off ++ List.replicate (off - file.length) '\x00' ++ data
    ++ file.drop (off + data.length)

/-- Mirrors the inner `for` loop of `context_writer::overwrite`
(`src/llmq.cc`): advance both cursors together while both are in bounds and
the characters differ, returning the final cursor pair (the
resynchronization point). -/
def scan_diff (buf cur : List Char) (bi ci : Nat) : Nat × Nat :=
  if h : bi < buf.length ∧ ci < cur.length ∧ buf.getD bi ' ' ≠ cur.getD ci ' ' then
    scan_diff buf cur (bi + 1) (ci + 1)
  else (bi, ci)
termination_by buf.length - bi
decreasing_by omega

/-- Mirrors the outer `while` loop of `context_writer::overwrite`: advance
both cursors over matching characters; at a mismatch, find the
resynchronization point and record a write of the differing span of the new
buffer at its offset.  Returns the recorded `(offset, bytes)` writes in
order together with the final cursor pair. -/
def overwrite_loop (buf cur : List Char) (bi ci : Nat) :
    List (Nat × List Char) × Nat × Nat :=
  if h : bi < buf.length ∧ ci < cur.length then
    if buf.getD bi ' ' = cur.getD ci ' ' then
      overwrite_loop buf cur (bi + 1) (ci + 1)
    else
      let dbegin := ci
      let p := scan_diff buf cur bi ci
      let res := overwrite_loop buf cur p.1 p.2
      ((dbegin, (cur.drop dbegin).take (p.2 - dbegin)) :: res.1, res.2)
  else ([], bi, ci)
termination_by buf.length - bi
decreasing_by
  · omega
  · have key : ∀ fuel bj cj, buf.length - bj ≤ fuel → bj ≤ (scan_diff buf cur bj cj).1 := by
      intro fuel
      induction fuel with
      | zero =>
        intro bj cj hf
        rw [scan_diff]
        have : ¬(bj < buf.length ∧ cj < cur.length ∧ buf.getD bj ' ' ≠ cur.getD cj ' ') := by
          intro hcon; omega
        rw [dif_neg this]
      | succ fuel ihf =>
        intro bj cj hf
        rw [scan_diff]
        by_cases hcon : bj < buf.length ∧ cj < cur.length ∧ buf.getD bj ' ' ≠ cur.getD cj ' '
        · rw [dif_pos hcon]
          have := ihf (bj + 1) (cj + 1) (by omega)
          omega
        · rw [dif_neg hcon]
    have h1 : bi + 1 ≤ (scan_diff buf cur (bi + 1) (ci + 1)).1 :=
      key (buf.length - (bi + 1)) (bi + 1) (ci + 1) (le_refl _)
    have h2 : scan_diff buf cur bi ci = scan_diff buf cur (bi + 1) (ci + 1) := by
      rw [scan_diff]
      exact dif_pos ⟨h.1, h.2, by assumption⟩
    simp only [p, h2]
    omega

/-- The writes performed by one `context_writer::overwrite` call given the
held snapshot `buf` (`_buf`) and the new serialization `cur`: the loop
writes followed, when the new buffer extends past the resynchronized end,
by the trailing excess written at the final cursor offset. -/
def overwrite_writes (buf cur : List Char) : List (Nat × List Char) :=
  let r := overwrite_loop buf cur 0 0
  if r.2.2 < cur.length then r.1 ++ [(r.2.2, cur.drop r.2.2)] else r.1

/-- Apply a sequence of positional writes to a file, left to right. -/
def apply_writes : List Char → List (Nat × List Char) → List Char
  | file, [] => file
  | file, (off, data) :: ws => apply_writes (write_at file off data) ws

/-- One `context_writer::overwrite` call: given the current on-disk bytes
`file`, the held snapshot `buf` and the new serialization `cur` (the
`ryml::emitrs_yaml` output, produced by the external serializer), return
the new on-disk bytes and the replaced snapshot (`_buf = std::move(cur)`). -/
def overwrite (file buf cur : List Char) : List Char × List Char :=
  (apply_writes file (overwrite_writes buf cur), cur)

/-- One choice slot of `gpt::onreply` (`src/plugins/gpt.cc`): a message map
node of the context with a `role` and a `content` scalar.  The nodes in
`impl::replies` are created by `add_message("", "")`, so both fields start
empty. -/
structure Slot where
  role : String
  content : String
deriving DecidableEq

/-- The slot every `add_message("", "")` call creates. -/
def empty_slot : Slot := ⟨"", ""⟩

/-- The per-choice update carried by one parsed reply record: either a
streamed `delta` map whose `role` and `content` keys are each optional
(`is_seed` when absent), or a complete `message` map with mandatory `role`
and `content`. -/
inductive Payload where
  | delta (role : Option String) (content : Option String)
  | message (role content : String)
deriving DecidableEq

/-- One element of the `choices` sequence: a mandatory `index` plus its
payload. -/
structure DeltaRec where
  index : Nat
  pay : Payload
deriving DecidableEq

/-- The protocol-error throw sites of `gpt::onreply` / `gpt::onfinish`. -/
inductive ProtoErr where
  | invalid_response
  | never_received_role
  | expected_messages
  | invalid_role
deriving DecidableEq

/-- Mirrors `while (idx >= impl::replies.size()) impl::replies.push_back(add_message("", ""))`:
lazily grow the slot list (and with it the context's message history) so
that index `idx` exists. -/
def grow_replies (replies : List Slot) (idx : Nat) : List Slot :=
  replies ++ List.replicate (idx + 1 - replies.length) empty_slot

/-- Role and content resolution of one record in `gpt::onreply`: in the
delta branch, an absent role falls back to the slot's stored role and is a
protocol error (`"never received role"`) when the stored role is still
empty; an absent content leaves the increment empty.  The message branch
carries both outright. -/
def extract_role_content (s : Slot) : Payload → Except ProtoErr (String × String)
  | .delta r c =>
    match r with
    | some role => .ok (role, c.getD "")
    | none =>
      if s.role = "" then .error .never_received_role
      else .ok (s.role, c.getD "")
  | .message role content => .ok (role, content)

/-- The content increment a record contributes (independent of slot state). -/
def rec_increment (r : DeltaRec) : String :=
  match r.pay with
  | .delta _ c => c.getD ""
  | .message _ content => content

/-- Concatenation of all content increments in merge order. -/
def concat_increments (rs : List DeltaRec) : String :=
  rs.foldr (fun r acc => rec_increment r ++ acc) ""

/-- One iteration of the `choices` loop of `gpt::onreply`: grow the slot
list to cover the index, resolve role and content, fail when the stored
role is non-empty and differs from the resolved role (`I1`), otherwise
store the role and append the content increment to the slot's buffer
(`I2`). -/
def merge_record (replies : List Slot) (r : DeltaRec) : Except ProtoErr (List Slot) :=
  let rs := grow_replies replies r.index
  let s := rs.getD r.index empty_slot
  match extract_role_content s r.pay with
  | .error e => .error e
  | .ok (role, content) =>
    if s.role ≠ "" ∧ s.role ≠ role then .error .invalid_response
    else .ok (rs.set r.index ⟨role, s.content ++ content⟩)

/-- Merging one parsed fragment: fold its records left to right, stopping
at the first protocol error (the throw unwinds out of the loop). -/
def merge_records : List Slot → List DeltaRec → Except ProtoErr (List Slot)
  | replies, [] => .ok replies
  | replies, r :: rest =>
    match merge_record replies r with
    | .error e => .error e
    | .ok rs => merge_records rs rest

/-- What `gpt::onfinish` prints. -/
inductive FinOut where
  | silent
  | newline
  | contents (cs : List String)
deriving DecidableEq

/-- Embedding of `gpt::onfinish` (`src/plugins/gpt.cc`): with printing off
it does nothing; with no configured `n`, or `n = 1`, it prints a newline;
otherwise it requires at least `n` messages, requires the last `n` to carry
role `"assistant"`, and prints their contents as a JSON sequence.  The
returned slot list is the context's message history after the call — the
function only reads it. -/
def onfinish (print : Bool) (n : Option Nat) (messages : List Slot) :
    Except ProtoErr (List Slot × FinOut) :=
  if !print then .ok (messages, .silent)
  else
    match n with
    | none => .ok (messages, .newline)
    | some nn =>
      if nn = 1 then .ok (messages, .newline)
      else
        let len := messages.length
        if len < nn then .error .expected_messages
        else
          let last := messages.drop (len - nn)
          if last.all (fun m => m.role = "assistant") then
            .ok (messages, .contents (last.map (fun m => m.content)))
          else .error .invalid_role

/-- The cURL write callback `onwrite` (`src/llmq.cc`): it reports the full
chunk length when the update callback accepted the chunk and `0` (a
transport-level error, aborting the transfer) when it did not. -/
def onwrite_ret (len : Nat) (accepted : Bool) : Nat :=
  if accepted then len else 0

/-- One streamed transfer attempt of the chat action: fold the parsed
fragments of the response into the slots; a protocol error aborts the
transfer (the callback returns 0, `curl_easy_perform` yields
`CURLE_WRITE_ERROR`, `request` returns `false`), reporting the state
already reached by the earlier successful merges. -/
def run_attempt : List Slot → List (List DeltaRec) → List Slot × Option ProtoErr
  | st, [] => (st, none)
  | st, frag :: rest =>
    match merge_records st frag with
    | .ok st1 => run_attempt st1 rest
    | .error e => (st, some e)

/-- Outcome of the chat driver loop. -/
inductive DriveResult where
  | ok (st : List Slot)
  | fatal (e : ProtoErr) (st : List Slot)
  | no_response (st : List Slot)
deriving DecidableEq

/-- The `while (!request(...))` loop of the chat action in `main`
(`src/llmq.cc`): each iteration issues the request and merges one response
(`attempts` lists the successive responses the transport would deliver).  A
clean attempt ends the action; a protocol error either consumes the single
retry credit (`retry = false`) and reissues the whole request with the
context as already mutated, or, with no credit left, terminates the action
with a diagnostic (`die`). -/
def drive : List Slot → Bool → List (List (List DeltaRec)) → DriveResult
  | st, _, [] => .no_response st
  | st, retry, a :: rest =>
    match run_attempt st a with
    | (st1, none) => .ok st1
    | (st1, some e) => if retry then drive st1 false rest else .fatal e st1

/-- One `/proc` candidate as `kill_ctx` (`src/llmq.cc`) inspects it:
`exe` is the filename of its `/proc/PID/exe` symlink (`none` when the link
is missing, not a symlink, or unreadable — any thrown error skips the
candidate), and `fds` is the list of resolved `/proc/PID/fd` symlink
targets (`none` when the fd directory is missing, not a directory, or
unreadable). -/
structure ProcEntry where
  pid : Nat
  exe : Option String
  fds : Option (List String)
deriving DecidableEq

/-- The per-candidate filter chain of `kill_ctx`: skip our own pid, skip
candidates whose executable image differs from ours or cannot be
inspected, and keep those with the context file among their open files. -/
def ctx_match (our_pid : Nat) (our_exe ctxfile : String) (p : ProcEntry) : Bool :=
  if p.pid = our_pid then false
  else
    match p.exe with
    | none => false
    | some e =>
      if e ≠ our_exe then false
      else
        match p.fds with
        | none => false
        | some fds => fds.contains ctxfile

/-- Result of a `kill_ctx` scan: pids signaled with `SIGTERM` in scan
order, whether the multiple-holder warning was printed, and whether the
operation succeeded (`killed`; `die` otherwise). -/
structure KillResult where
  signaled : List Nat
  warned : Bool
  ok : Bool
deriving DecidableEq

/-- The scan loop of `kill_ctx`: on each match, warn when a kill already
happened, signal the candidate and remember that something was killed. -/
def kill_loop (m : ProcEntry → Bool) : List ProcEntry → Bool → List Nat → Bool → KillResult
  | [], killed, sig, warned => ⟨sig.reverse, warned, killed⟩
  | p :: rest, killed, sig, warned =>
    if m p then kill_loop m rest true (p.pid :: sig) (warned || killed)
    else kill_loop m rest killed sig warned

/-- Embedding of `kill_ctx` (`src/llmq.cc`) over a process table. -/
def kill_ctx (our_pid : Nat) (our_exe ctxfile : String) (tbl : List ProcEntry) :
    KillResult :=
  kill_loop (ctx_match our_pid our_exe ctxfile) tbl false [] false

/-- The spec's end-to-end scenario: three streamed deltas for choice index
0 carrying role `"assistant"` (first record only) and the content
increments `"Hel"`, `"lo"`, `" world"`. -/
def demo_recs : List DeltaRec :=
  [⟨0, .delta (some "assistant") (some "Hel")⟩,
   ⟨0, .delta none (some "lo")⟩,
   ⟨0, .delta none (some " world")⟩]

/-- The slot state after merging `demo_recs` into an empty document. -/
def demo_out : List Slot := [⟨"assistant", "Hello world"⟩]

/-- A demonstration process table: our own process (pid 1), one sibling
llmq process holding the context file, one unrelated editor, one candidate
whose inspection fails, and one sibling without the context file open. -/
def demo_tbl : List ProcEntry :=
  [⟨1, some "llmq", some ["/ctx"]⟩,
   ⟨2, some "llmq", some ["/ctx"]⟩,
   ⟨3, some "vim", some ["/ctx"]⟩,
   ⟨4, none, none⟩,
   ⟨5, some "llmq", some ["/other"]⟩]

/-- The demonstration table with a second sibling holder added. -/
def demo_tbl2 : List ProcEntry :=
  demo_tbl ++ [⟨6, some "llmq", some ["/ctx"]⟩]

/-- Scanning characters that are neither braces nor double quotes, before any
fragment has begun, leaves the extractor state untouched. -/
theorem find_json_loop_skip (t : List Char) :
    ∀ p : List Char, (∀ c ∈ p, c ≠ '\x7b' ∧ c ≠ '\x7d' ∧ c ≠ '\x22') →
    find_json_loop (p ++ t) 0 false none = find_json_loop t 0 false none := by
  intro p
  induction p with
  | nil => intro _; rfl
  | cons c p ih =>
    intro hp
    have hc := hp c (List.mem_cons_self c p)
    have ih2 := ih (fun d hd => hp d (List.mem_cons_of_mem c hd))
    rw [List.cons_append, find_json_loop.eq_def]
    simp [hc.1, hc.2.1, hc.2.2, ih2]

/-- Once inside a candidate fragment (accumulator armed, depth at least 1),
the extractor consumes exactly the span that `consume_obj` closes and
returns the accumulated text followed by that span. -/
theorem find_json_loop_object :
    ∀ (n : Nat) (w : List Char), w.length ≤ n →
    ∀ (rest : List Char) (depth : Int) (inStr : Bool) (a : List Char),
    1 ≤ depth →
    consume_obj w depth inStr = some w.length →
    find_json_loop (w ++ rest) depth inStr (some a) = some (a.reverse ++ w) := by
  intro n
  induction n with
  | zero =>
    intro w hw rest depth inStr a _ hc
    have hnil : w = [] := List.length_eq_zero.mp (Nat.le_zero.mp hw)
    subst hnil
    simp [consume_obj] at hc
  | succ n ih =>
    intro w hw rest depth inStr a hd hc
    match w with
    | [] => simp [consume_obj] at hc
    | c :: w1 =>
      rw [consume_obj.eq_def] at hc
      rw [List.cons_append, find_json_loop.eq_def]
      simp only [List.length_cons] at hw
      cases inStr with
      | true =>
        by_cases hbs : c = '\x5c'
        · subst hbs
          match w1 with
          | [] => simp at hc
          | d :: w2 =>
            simp only [List.length_cons] at hw hc ⊢
            simp at hc ⊢
            rw [ih w2 (by omega) rest depth true (d :: '\x5c' :: a) hd hc]
            simp
        · by_cases hq : c = '\x22'
          · subst hq
            simp [hbs] at hc ⊢
            rw [ih w1 (by omega) rest depth false ('\x22' :: a) hd hc]
            simp
          · simp [hbs, hq] at hc ⊢
            rw [ih w1 (by omega) rest depth true (c :: a) hd hc]
            simp
      | false =>
        by_cases hob : c = '\x7b'
        · subst hob
          have hne : ¬depth = 0 := by omega
          simp [hne] at hc ⊢
          rw [ih w1 (by omega) rest (depth + 1) false ('\x7b' :: a) (by omega) hc]
          simp
        · by_cases hcb : c = '\x7d'
          · subst hcb
            by_cases hd1 : depth - 1 = 0
            · simp [hob, hd1] at hc ⊢
              subst hc
              simp
            · simp [hob, hd1] at hc ⊢
              rw [ih w1 (by omega) rest (depth - 1) false ('\x7d' :: a) (by omega) hc]
              simp
          · by_cases hq : c = '\x22'
            · subst hq
              simp [hob, hcb] at hc ⊢
              rw [ih w1 (by omega) rest depth true ('\x22' :: a) hd hc]
              simp
            · simp [hob, hcb, hq] at hc ⊢
              rw [ih w1 (by omega) rest depth false (c :: a) hd hc]
              simp

theorem getD_append_left {α : Type} {l₁ l₂ : List α} {j : Nat} (h : j < l₁.length) (x : α) :
    (l₁ ++ l₂).getD j x = l₁.getD j x := by
  simp [List.getD_eq_getElem?_getD, List.getElem?_append, h]

theorem getD_append_right {α : Type} {l₁ l₂ : List α} {j : Nat} (h : l₁.length ≤ j) (x : α) :
    (l₁ ++ l₂).getD j x = l₂.getD (j - l₁.length) x := by
  simp [List.getD_eq_getElem?_getD, List.getElem?_append_right h]

theorem getD_take {α : Type} {l : List α} {n j : Nat} (h : j < n) (x : α) :
    (l.take n).getD j x = l.getD j x := by
  simp [List.getD_eq_getElem?_getD, List.getElem?_take, h]

theorem getD_drop {α : Type} (l : List α) (n j : Nat) (x : α) :
    (l.drop n).getD j x = l.getD (n + j) x := by
  simp [List.getD_eq_getElem?_getD, List.getElem?_drop]

theorem ext_getD {l₁ l₂ : List Char} (h : l₁.length = l₂.length)
    (h2 : ∀ j, j < l₁.length → l₁.getD j ' ' = l₂.getD j ' ') : l₁ = l₂ := by
  apply List.ext_getElem h
  intro i h₁ h₂
  have := h2 i h₁
  rwa [List.getD_eq_getElem _ _ h₁, List.getD_eq_getElem _ _ h₂] at this

theorem write_at_length {file data : List Char} {off : Nat}
    (h : off + data.length ≤ file.length) :
    (write_at file off data).length = file.length := by
  simp [write_at]
  omega

theorem write_at_getD {file data : List Char} {off : Nat}
    (h : off + data.length ≤ file.length) (j : Nat) (x : Char) :
    (write_at file off data).getD j x =
      if j < off then file.getD j x
      else if j < off + data.length then data.getD (j - off) x
      else file.getD j x := by
  unfold write_at
  have hrep : off - file.length = 0 := by omega
  rw [hrep, List.replicate_zero, List.append_nil, List.append_assoc]
  have hlt : (file.take off).length = off := by simp; omega
  by_cases h1 : j < off
  · rw [getD_append_left (by rw [hlt]; omega), getD_take h1, if_pos h1]
  · rw [getD_append_right (by rw [hlt]; omega), hlt, if_neg h1]
    by_cases h2 : j < off + data.length
    · rw [getD_append_left (by omega), if_pos h2]
    · rw [getD_append_right (by omega), getD_drop, if_neg h2]
      congr 1
      omega

theorem write_at_append {file data : List Char} (h : file.length = off) :
    write_at file off data = file ++ data := by
  subst h
  simp [write_at]

theorem apply_writes_append (ws₁ ws₂ : List (Nat × List Char)) :
    ∀ f, apply_writes f (ws₁ ++ ws₂) = apply_writes (apply_writes f ws₁) ws₂ := by
  induction ws₁ with
  | nil => intro f; rfl
  | cons w ws ih =>
    intro f
    match w with
    | (off, data) => simp [apply_writes, ih]

/-- The inner scan, entered with both cursors equal, keeps them equal and
stops at or before the first exhausted buffer. -/
theorem scan_diff_spec (buf cur : List Char) :
    ∀ (fuel i : Nat), min buf.length cur.length - i ≤ fuel →
    i ≤ min buf.length cur.length →
    ∃ k, scan_diff buf cur i i = (k, k) ∧ i ≤ k ∧ k ≤ min buf.length cur.length := by
  intro fuel
  induction fuel with
  | zero =>
    intro i hf hi
    have hstop : ¬(i < buf.length ∧ i < cur.length ∧ buf.getD i ' ' ≠ cur.getD i ' ') := by
      intro hcon; omega
    exact ⟨i, by rw [scan_diff, dif_neg hstop], le_refl i, hi⟩
  | succ fuel ih =>
    intro i hf hi
    by_cases hcon : i < buf.length ∧ i < cur.length ∧ buf.getD i ' ' ≠ cur.getD i ' '
    · obtain ⟨k, hk, hik, hkm⟩ := ih (i + 1) (by omega) (by omega)
      exact ⟨k, by rw [scan_diff, dif_pos hcon]; exact hk, by omega, hkm⟩
    · exact ⟨i, by rw [scan_diff, dif_neg hcon], le_refl i, hi⟩

/-- Invariant of the outer diff loop: entered at equal cursors `i` over a
file that agrees with the snapshot from `i` on, it drives both cursors to
the end of the shorter buffer and the applied writes rewrite exactly the
positions in `[i, min)` to the new buffer's bytes. -/
theorem overwrite_loop_spec (buf cur : List Char) :
    ∀ (fuel i : Nat) (f : List Char),
    min buf.length cur.length - i ≤ fuel →
    i ≤ min buf.length cur.length →
    f.length = buf.length →
    (∀ j, i ≤ j → j < buf.length → f.getD j ' ' = buf.getD j ' ') →
    (overwrite_loop buf cur i i).2 =
      (min buf.length cur.length, min buf.length cur.length) ∧
    (apply_writes f (overwrite_loop buf cur i i).1).length = buf.length ∧
    (∀ j, j < buf.length →
      (apply_writes f (overwrite_loop buf cur i i).1).getD j ' ' =
        if i ≤ j ∧ j < min buf.length cur.length then cur.getD j ' '
        else f.getD j ' ') := by
  intro fuel
  induction fuel with
  | zero =>
    intro i f hf hi hflen hagree
    have hstop : ¬(i < buf.length ∧ i < cur.length) := by intro hcon; omega
    rw [overwrite_loop, dif_neg hstop]
    have him : i = min buf.length cur.length := by omega
    refine ⟨by rw [him], by simpa [apply_writes] using hflen, ?_⟩
    intro j hj
    simp only [apply_writes]
    have : ¬(i ≤ j ∧ j < min buf.length cur.length) := by omega
    rw [if_neg this]
  | succ fuel ih =>
    intro i f hf hi hflen hagree
    by_cases hcon : i < buf.length ∧ i < cur.length
    · rw [overwrite_loop, dif_pos hcon]
      by_cases hmatch : buf.getD i ' ' = cur.getD i ' '
      · rw [if_pos hmatch]
        obtain ⟨hcur, hlen, hpt⟩ := ih (i + 1) f (by omega) (by omega) hflen
          (fun j hj hjb => hagree j (by omega) hjb)
        refine ⟨hcur, hlen, ?_⟩
        intro j hj
        rw [hpt j hj]
        by_cases hji : i ≤ j ∧ j < min buf.length cur.length
        · rw [if_pos hji]
          by_cases hji2 : i + 1 ≤ j ∧ j < min buf.length cur.length
          · rw [if_pos hji2]
          · have hje : j = i := by omega
            rw [if_neg hji2, hje, hagree i (le_refl i) hcon.1, hmatch]
        · have : ¬(i + 1 ≤ j ∧ j < min buf.length cur.length) := by omega
          rw [if_neg this, if_neg hji]
      · rw [if_neg hmatch]
        have hstep : scan_diff buf cur i i = scan_diff buf cur (i + 1) (i + 1) := by
          rw [scan_diff]
          exact dif_pos ⟨hcon.1, hcon.2, hmatch⟩
        obtain ⟨k, hk, hik, hkm⟩ :=
          scan_diff_spec buf cur (min buf.length cur.length - (i + 1)) (i + 1)
            (le_refl _) (by omega)
        rw [hstep, hk]
        simp only
        have hchunklen : ((cur.drop i).take (k - i)).length = k - i := by
          simp
          omega
        have hwa : i + ((cur.drop i).take (k - i)).length ≤ f.length := by
          rw [hchunklen]
          omega
        obtain ⟨hcur, hlen, hpt⟩ := ih k (write_at f i ((cur.drop i).take (k - i)))
          (by omega) (by omega)
          (by rw [write_at_length hwa]; exact hflen)
          (by
            intro j hj hjb
            rw [write_at_getD hwa j ' ']
            rw [hchunklen]
            have h1 : ¬j < i := by omega
            have h2 : ¬j < i + (k - i) := by omega
            rw [if_neg h1, if_neg h2]
            exact hagree j (by omega) hjb)
        refine ⟨hcur, ?_, ?_⟩
        · simpa [apply_writes] using hlen
        · intro j hj
          simp only [apply_writes]
          rw [hpt j hj]
          rw [write_at_getD hwa j ' ', hchunklen]
          by_cases hj1 : j < i
          · have hn1 : ¬k ≤ j := by omega
            have hn2 : ¬(k ≤ j ∧ j < min buf.length cur.length) := by omega
            have hn3 : ¬(i ≤ j ∧ j < min buf.length cur.length) := by omega
            rw [if_neg hn2, if_pos hj1, if_neg hn3]
          · by_cases hj2 : j < k
            · have hn2 : ¬(k ≤ j ∧ j < min buf.length cur.length) := by omega
              have hp3 : i ≤ j ∧ j < min buf.length cur.length := by omega
              have hj25 : j < i + (k - i) := by omega
              rw [if_neg hn2, if_neg hj1, if_pos hj25, if_pos hp3,
                getD_take (by omega), getD_drop]
              congr 1
              omega
            · by_cases hj3 : j < min buf.length cur.length
              · have hp2 : k ≤ j ∧ j < min buf.length cur.length := by omega
                have hp3 : i ≤ j ∧ j < min buf.length cur.length := by omega
                rw [if_pos hp2, if_pos hp3]
              · have hn2 : ¬(k ≤ j ∧ j < min buf.length cur.length) := by omega
                have hn3 : ¬(i ≤ j ∧ j < min buf.length cur.length) := by omega
                have hj25 : ¬j < i + (k - i) := by omega
                rw [if_neg hn2, if_neg hj1, if_neg hj25, if_neg hn3]
    · rw [overwrite_loop, dif_neg hcon]
      have him : i = min buf.length cur.length := by omega
      refine ⟨by rw [him], by simpa [apply_writes] using hflen, ?_⟩
      intro j hj
      simp only [apply_writes]
      have : ¬(i ≤ j ∧ j < min buf.length cur.length) := by omega
      rw [if_neg this]

/-- With an equal snapshot and new buffer the diff loop records no writes
and runs both cursors to the end. -/
theorem overwrite_loop_self (B : List Char) :
    ∀ (fuel i : Nat), B.length - i ≤ fuel → i ≤ B.length →
    overwrite_loop B B i i = ([], B.length, B.length) := by
  intro fuel
  induction fuel with
  | zero =>
    intro i hf hi
    have hstop : ¬(i < B.length ∧ i < B.length) := by omega
    rw [overwrite_loop, dif_neg hstop]
    have : i = B.length := by omega
    rw [this]
  | succ fuel ih =>
    intro i hf hi
    by_cases hcon : i < B.length ∧ i < B.length
    · rw [overwrite_loop, dif_pos hcon, if_pos rfl]
      exact ih (i + 1) (by omega) (by omega)
    · rw [overwrite_loop, dif_neg hcon]
      have : i = B.length := by omega
      rw [this]

/-- C2: if the new serialization `B` is at least as long as the
serialization `A` that is both on disk and held as the snapshot, one
`overwrite` call leaves the file contents exactly `B` (the loop rewrites
every differing span and the trailing excess is appended). -/
theorem overwrite_longer_exact (A B : List Char) (h : A.length ≤ B.length) :
    (overwrite A A B).1 = B := by
  have hmin : min A.length B.length = A.length := Nat.min_eq_left h
  obtain ⟨hcur, hlen, hpt⟩ := overwrite_loop_spec A B (min A.length B.length) 0 A
    (by omega) (by omega) rfl (fun j _ _ => rfl)
  have hloop : apply_writes A (overwrite_loop A B 0 0).1 = B.take A.length := by
    apply ext_getD
    · rw [hlen]
      simp
      omega
    · intro j hj
      rw [hlen] at hj
      rw [hpt j hj, getD_take hj, if_pos (by omega)]
  show apply_writes A (overwrite_writes A B) = B
  unfold overwrite_writes
  simp only [hcur]
  by_cases hAB : A.length < B.length
  · rw [if_pos (by simpa using hAB)]
    rw [apply_writes_append, hloop]
    show write_at (B.take A.length) (min A.length B.length) (B.drop (min A.length B.length)) = B
    rw [hmin, write_at_append (by simp; omega), List.take_append_drop]
  · have heq : A.length = B.length := by omega
    rw [if_neg (by simpa using hAB)]
    rw [hloop, heq, List.take_length]

/-- Witness for C2: a longer new serialization with both a differing span
and trailing excess fully replaces the on-disk contents. -/
theorem overwrite_longer_exact_witness :
    "ab".toList.length ≤ "axcd".toList.length ∧
    (overwrite "ab".toList "ab".toList "axcd".toList).1 = "axcd".toList :=
  ⟨by decide, overwrite_longer_exact "ab".toList "axcd".toList (by decide)⟩

/-- C6: if the new serialization `B` is strictly shorter than the
serialization `A` on disk (and held as the snapshot), `overwrite` does not
truncate: the file becomes `B` followed by the stale tail of `A`. -/
theorem overwrite_shorter_stale (A B : List Char) (h : B.length < A.length) :
    (overwrite A A B).1 = B ++ A.drop B.length := by
  have hmin : min A.length B.length = B.length := Nat.min_eq_right (by omega)
  obtain ⟨hcur, hlen, hpt⟩ := overwrite_loop_spec A B (min A.length B.length) 0 A
    (by omega) (by omega) rfl (fun j _ _ => rfl)
  show apply_writes A (overwrite_writes A B) = B ++ A.drop B.length
  unfold overwrite_writes
  simp only [hcur]
  rw [if_neg (by simp; omega)]
  apply ext_getD
  · rw [hlen]
    simp
    omega
  · intro j hj
    rw [hlen] at hj
    rw [hpt j hj]
    by_cases hjB : j < B.length
    · rw [if_pos (by omega), getD_append_left hjB]
    · rw [if_neg (by omega), getD_append_right (by omega), getD_drop]
      congr 1
      omega

/-- Witness for C6: shrinking from three bytes to one leaves the two stale
trailing bytes in place. -/
theorem overwrite_shorter_stale_witness :
    "x".toList.length < "abc".toList.length ∧
    (overwrite "abc".toList "abc".toList "x".toList).1 =
      "x".toList ++ "abc".toList.drop "x".toList.length :=
  ⟨by decide, overwrite_shorter_stale "abc".toList "x".toList (by decide)⟩

/-- C5: after an `overwrite` with serialization `B` the snapshot equals `B`,
so a second `overwrite` with the same `B` records zero writes and leaves
the file untouched. -/
theorem overwrite_idempotent (file buf B : List Char) :
    overwrite_writes (overwrite file buf B).2 B = [] ∧
    (overwrite (overwrite file buf B).1 (overwrite file buf B).2 B).1 =
      (overwrite file buf B).1 := by
  have hww : overwrite_writes B B = [] := by
    unfold overwrite_writes
    rw [overwrite_loop_self B B.length 0 (by omega) (by omega)]
    simp
  refine ⟨hww, ?_⟩
  show apply_writes (overwrite file buf B).1 (overwrite_writes B B) =
    (overwrite file buf B).1
  rw [hww]
  rfl

/-- C1 (amended): for any input text made of a prefix containing neither
braces nor double quotes, exactly one brace-balanced quote-aware top-level
JSON object, and arbitrary following text, `find_json` returns exactly the
object's text; brace nesting is tracked outside double-quoted strings, a
backslash inside a string skips the following character, and an unescaped
double quote toggles string mode. -/
theorem find_json_extracts (p w s : List Char)
    (hp : ∀ c ∈ p, c ≠ '\x7b' ∧ c ≠ '\x7d' ∧ c ≠ '\x22')
    (hw : IsJsonObject w) :
    find_json (p ++ (w ++ s)) = some w := by
  obtain ⟨hh, hc⟩ := hw
  cases w with
  | nil => simp at hh
  | cons c w1 =>
    have hc0 : c = '\x7b' := by simpa using hh
    subst hc0
    unfold find_json
    rw [find_json_loop_skip (('\x7b' :: w1) ++ s) p hp]
    rw [consume_obj.eq_def] at hc
    simp at hc
    rw [List.cons_append, find_json_loop.eq_def]
    simp
    rw [find_json_loop_object w1.length w1 (le_refl _) s 1 false ['\x7b'] (by omega) hc]
    simp

/-- C1 counterexample: the claim admits an arbitrary non-brace prefix, but
an unmatched double quote there puts the scanner into string mode, so with
prefix `"` before the balanced object the extractor reports no fragment
instead of returning the object's text. -/
theorem find_json_quote_prefix_cex :
    IsJsonObject ['\x7b', '\x7d'] ∧
    (∀ c ∈ ['\x22'], c ≠ '\x7b' ∧ c ≠ '\x7d') ∧
    find_json (['\x22'] ++ (['\x7b', '\x7d'] ++ [])) = none := by
  exact ⟨by decide, by decide, by decide⟩

/-- Witness for C1 on one of the spec's example vectors: the object with a
brace inside a quoted string is extracted from surrounding label text. -/
theorem find_json_extracts_witness :
    (∀ c ∈ " foo: ".toList, c ≠ '\x7b' ∧ c ≠ '\x7d' ∧ c ≠ '\x22') ∧
    IsJsonObject "\x7b\x22a\x22: \x22b: \x7b\x22\x7d".toList ∧
    find_json (" foo: ".toList ++
        ("\x7b\x22a\x22: \x22b: \x7b\x22\x7d".toList ++ "  bar ".toList)) =
      some "\x7b\x22a\x22: \x22b: \x7b\x22\x7d".toList :=
  ⟨by decide, by decide, find_json_extracts _ _ _ (by decide) (by decide)⟩

theorem getD_replicate {α : Type} (n j : Nat) (a : α) :
    (List.replicate n a).getD j a = a := by
  simp [List.getD_eq_getElem?_getD, List.getElem?_replicate]
  split <;> simp

theorem getD_oob {α : Type} {l : List α} {j : Nat} (h : l.length ≤ j) (x : α) :
    l.getD j x = x := by
  simp [List.getD_eq_getElem?_getD, List.getElem?_eq_none h]

theorem getD_set_self {α : Type} {l : List α} {k : Nat} (a x : α) (h : k < l.length) :
    (l.set k a).getD k x = a := by
  simp [List.getD_eq_getElem?_getD, List.getElem?_set_self, h]

theorem grow_length (replies : List Slot) (k : Nat) :
    (grow_replies replies k).length = max replies.length (k + 1) := by
  simp [grow_replies]
  omega

theorem grow_lt (replies : List Slot) (k : Nat) :
    k < (grow_replies replies k).length := by
  rw [grow_length]
  omega

/-- Growing the slot list does not change the slot read at the grown index:
an existing slot is kept, a fresh one equals the out-of-range default. -/
theorem grow_getD_self (replies : List Slot) (k : Nat) :
    (grow_replies replies k).getD k empty_slot = replies.getD k empty_slot := by
  unfold grow_replies
  by_cases hk : k < replies.length
  · rw [getD_append_left hk]
  · rw [getD_append_right (by omega), getD_replicate, getD_oob (by omega)]

theorem extract_ok_content (s : Slot) (r : DeltaRec) (rc : String × String)
    (h : extract_role_content s r.pay = .ok rc) : rc.2 = rec_increment r := by
  match r with
  | ⟨k, .delta ro c⟩ =>
    match ro with
    | some role =>
      simp [extract_role_content] at h
      simp [rec_increment, ← h]
    | none =>
      by_cases hrole : s.role = ""
      · simp [extract_role_content, hrole] at h
      · simp [extract_role_content, hrole] at h
        simp [rec_increment, ← h]
  | ⟨k, .message role content⟩ =>
    simp [extract_role_content] at h
    simp [rec_increment, ← h]

/-- Structure of a successful single-record merge: the result is the grown
slot list with the addressed slot's role replaced and the content increment
appended. -/
theorem merge_record_ok_shape (replies : List Slot) (r : DeltaRec) (out : List Slot)
    (h : merge_record replies r = .ok out) :
    ∃ rc : String × String,
      extract_role_content ((grow_replies replies r.index).getD r.index empty_slot)
          r.pay = .ok rc ∧
      out = (grow_replies replies r.index).set r.index
        ⟨rc.1, ((grow_replies replies r.index).getD r.index empty_slot).content ++ rc.2⟩ := by
  simp only [merge_record] at h
  cases hx : extract_role_content ((grow_replies replies r.index).getD r.index empty_slot)
      r.pay with
  | error e => rw [hx] at h; simp at h
  | ok rc =>
    obtain ⟨role, content⟩ := rc
    rw [hx] at h
    dsimp only at h
    by_cases hif : ((grow_replies replies r.index).getD r.index empty_slot).role ≠ "" ∧
        ((grow_replies replies r.index).getD r.index empty_slot).role ≠ role
    · rw [if_pos hif] at h
      simp at h
    · rw [if_neg hif] at h
      exact ⟨(role, content), rfl, (Except.ok.inj h).symm⟩

/-- One successful merge appends exactly the record's content increment to
the addressed slot. -/
theorem merge_record_content (replies : List Slot) (r : DeltaRec) (out : List Slot)
    (h : merge_record replies r = .ok out) :
    (out.getD r.index empty_slot).content =
      (replies.getD r.index empty_slot).content ++ rec_increment r := by
  obtain ⟨rc, hx, hout⟩ := merge_record_ok_shape replies r out h
  rw [hout, getD_set_self _ _ (grow_lt replies r.index)]
  rw [grow_getD_self, extract_ok_content _ _ _ hx]

theorem merge_record_length (replies : List Slot) (r : DeltaRec) (out : List Slot)
    (h : merge_record replies r = .ok out) :
    out.length = max replies.length (r.index + 1) := by
  obtain ⟨rc, hx, hout⟩ := merge_record_ok_shape replies r out h
  rw [hout, List.length_set, grow_length]

/-- C3: merging any sequence of records addressed to one choice index
appends, in merge order, exactly the concatenation of their content
increments to that slot's content (content is append-only within one
request). -/
theorem merge_content_concat (replies : List Slot) (rs : List DeltaRec) (k : Nat)
    (out : List Slot) (hk : ∀ r ∈ rs, r.index = k)
    (h : merge_records replies rs = .ok out) :
    (out.getD k empty_slot).content =
      (replies.getD k empty_slot).content ++ concat_increments rs := by
  induction rs generalizing replies with
  | nil =>
    simp [merge_records] at h
    subst h
    simp [concat_increments]
  | cons r rest ih =>
    unfold merge_records at h
    cases hm : merge_record replies r with
    | error e => rw [hm] at h; simp at h
    | ok rs1 =>
      rw [hm] at h
      have hidx := hk r (List.mem_cons_self r rest)
      have h1 := merge_record_content replies r rs1 hm
      rw [hidx] at h1
      have h2 := ih rs1 (fun r2 hr2 => hk r2 (List.mem_cons_of_mem r hr2)) h
      rw [h2, h1]
      show _ = _ ++ (rec_increment r ++ concat_increments rest)
      rw [String.append_assoc]

/-- Witness for C3: the spec's `"Hel"`, `"lo"`, `" world"` scenario yields
content `"Hello world"` on choice slot 0. -/
theorem merge_content_concat_witness :
    (∀ r ∈ demo_recs, r.index = 0) ∧
    merge_records [] demo_recs = .ok demo_out ∧
    (demo_out.getD 0 empty_slot).content =
      (([] : List Slot).getD 0 empty_slot).content ++ concat_increments demo_recs :=
  ⟨by decide, by rfl,
    merge_content_concat [] demo_recs 0 demo_out (by decide) (by rfl)⟩

/-- C4: once a slot's role is set (non-empty), a later delta supplying a
different role fails with the protocol error, while a delta supplying no
role or the identical role succeeds. -/
theorem merge_role_conflict (replies : List Slot) (k : Nat) (hk : k < replies.length)
    (hr : (replies.getD k empty_slot).role ≠ "") :
    (∀ role c, role ≠ (replies.getD k empty_slot).role →
      merge_record replies ⟨k, .delta (some role) c⟩ = .error .invalid_response) ∧
    (∀ c, ∃ out, merge_record replies ⟨k, .delta none c⟩ = .ok out) ∧
    (∀ c, ∃ out, merge_record replies
      ⟨k, .delta (some ((replies.getD k empty_slot).role)) c⟩ = .ok out) := by
  have hs := grow_getD_self replies k
  refine ⟨?_, ?_, ?_⟩
  · intro role c hne
    have hne2 : ¬((replies.getD k empty_slot).role = role) := fun he => hne he.symm
    simp [merge_record, hs, extract_role_content, hr, hne2,
      -List.getD_eq_getElem?_getD]
  · intro c
    exact ⟨(grow_replies replies k).set k
        ⟨(replies.getD k empty_slot).role, (replies.getD k empty_slot).content ++ c.getD ""⟩,
      by simp [merge_record, hs, extract_role_content, hr,
        -List.getD_eq_getElem?_getD]⟩
  · intro c
    exact ⟨(grow_replies replies k).set k
        ⟨(replies.getD k empty_slot).role, (replies.getD k empty_slot).content ++ c.getD ""⟩,
      by simp [merge_record, hs, extract_role_content,
        -List.getD_eq_getElem?_getD]⟩

/-- Witness for C4 at a concrete slot with stored role `"assistant"`: a
conflicting role errors, a role-less delta and an identical role succeed. -/
theorem merge_role_conflict_witness :
    (0 < demo_out.length ∧ (demo_out.getD 0 empty_slot).role ≠ "") ∧
    merge_record demo_out ⟨0, .delta (some "user") (some "x")⟩ =
      .error .invalid_response ∧
    (∃ out, merge_record demo_out ⟨0, .delta none (some "x")⟩ = .ok out) ∧
    (∃ out, merge_record demo_out
      ⟨0, .delta (some ((demo_out.getD 0 empty_slot).role)) (some "x")⟩ = .ok out) :=
  ⟨⟨by decide, by decide⟩,
    (merge_role_conflict demo_out 0 (by decide) (by decide)).1 "user" (some "x")
      (by decide),
    (merge_role_conflict demo_out 0 (by decide) (by decide)).2.1 (some "x"),
    (merge_role_conflict demo_out 0 (by decide) (by decide)).2.2 (some "x")⟩

/-- C10: the first delta for a slot must supply a role — a role-less delta
into a slot whose role is still empty (including a freshly created slot)
fails with the `"never received role"` protocol error; once the role is
set, role-less deltas reuse the stored role and succeed. -/
theorem first_delta_requires_role (replies : List Slot) (k : Nat) (c : Option String) :
    (((grow_replies replies k).getD k empty_slot).role = "" →
      merge_record replies ⟨k, .delta none c⟩ = .error .never_received_role) ∧
    ((replies.getD k empty_slot).role ≠ "" →
      ∃ out, merge_record replies ⟨k, .delta none c⟩ = .ok out ∧
        (out.getD k empty_slot).role = (replies.getD k empty_slot).role) := by
  have hs := grow_getD_self replies k
  constructor
  · intro hempty
    simp [merge_record, extract_role_content, hempty,
      -List.getD_eq_getElem?_getD]
  · intro hr
    refine ⟨(grow_replies replies k).set k
        ⟨(replies.getD k empty_slot).role,
          (replies.getD k empty_slot).content ++ c.getD ""⟩, ?_, ?_⟩
    · simp [merge_record, hs, extract_role_content, hr,
        -List.getD_eq_getElem?_getD]
    · rw [getD_set_self _ _ (grow_lt replies k)]

/-- Witness for C10: a content-only first delta into an empty document
fails with the protocol error; after the role is set, a role-less delta
succeeds and keeps the role. -/
theorem first_delta_requires_role_witness :
    (((grow_replies [] 0).getD 0 empty_slot).role = "" ∧
      merge_record [] ⟨0, .delta none (some "Hel")⟩ = .error .never_received_role) ∧
    ((demo_out.getD 0 empty_slot).role ≠ "" ∧
      ∃ out, merge_record demo_out ⟨0, .delta none (some "!")⟩ = .ok out ∧
        (out.getD 0 empty_slot).role = (demo_out.getD 0 empty_slot).role) :=
  ⟨⟨by decide, (first_delta_requires_role [] 0 (some "Hel")).1 (by decide)⟩,
   ⟨by decide, (first_delta_requires_role demo_out 0 (some "!")).2 (by decide)⟩⟩

/-- C9 counterexample: with choice count `n = 1` configured and zero
messages — fewer completed slots than the claim's expectation — finalize
succeeds with a newline instead of failing with a protocol error; and with
one merged message it returns the message history unchanged, committing no
new entries at finalize. -/
theorem onfinish_cex :
    (([] : List Slot).length < 1 ∧ onfinish true (some 1) [] = .ok ([], .newline)) ∧
    onfinish true (some 1) demo_out = .ok (demo_out, .newline) :=
  ⟨⟨by decide, by rfl⟩, by rfl⟩

/-- C9 (amended): per-slot content is committed into the Document's message
history during merge — a successful merge at a fresh index grows the
history to cover it — while finalize never modifies the message history; it
only validates and prints, and when printing with a configured choice count
of at least 2 it fails with a protocol error if fewer messages exist. -/
theorem onfinish_validates_only :
    (∀ (print : Bool) (n : Option Nat) (msgs : List Slot) out,
      onfinish print n msgs = .ok out → out.1 = msgs) ∧
    (∀ (n : Nat) (msgs : List Slot), 2 ≤ n → msgs.length < n →
      onfinish true (some n) msgs = .error .expected_messages) ∧
    (∀ (replies : List Slot) (r : DeltaRec) (out : List Slot),
      replies.length ≤ r.index → merge_record replies r = .ok out →
      out.length = r.index + 1) := by
  refine ⟨?_, ?_, ?_⟩
  · intro print n msgs out h
    have hout : ∀ (x : FinOut) (hx : Except.ok (ε := ProtoErr) (msgs, x) = Except.ok out),
        out.1 = msgs := by
      intro x hx
      rw [← Except.ok.inj hx]
    unfold onfinish at h
    split at h
    · exact hout _ h
    · split at h
      · exact hout _ h
      · split at h
        · exact hout _ h
        · dsimp only at h
          split at h
          · exact absurd h (by simp)
          · split at h
            · exact hout _ h
            · exact absurd h (by simp)
  · intro n msgs h2 hlen
    have hn1 : ¬(n = 1) := by omega
    simp [onfinish, hn1, hlen]
  · intro replies r out hge h
    rw [merge_record_length replies r out h]
    omega

/-- Witness for C9's amended claim: finalize keeps the history unchanged, a
two-choice request with one message fails, and a fresh-index merge grows
the history. -/
theorem onfinish_validates_only_witness :
    (onfinish true none demo_out = .ok (demo_out, FinOut.newline) ∧
      (demo_out, FinOut.newline).1 = demo_out) ∧
    (2 ≤ 2 ∧ demo_out.length < 2 ∧
      onfinish true (some 2) demo_out = .error .expected_messages) ∧
    (([] : List Slot).length ≤ 0 ∧
      merge_record [] ⟨0, .delta (some "assistant") (some "Hel")⟩ =
        .ok [⟨"assistant", "Hel"⟩] ∧
      ([(⟨"assistant", "Hel"⟩ : Slot)] : List Slot).length = 0 + 1) :=
  ⟨⟨by rfl, onfinish_validates_only.1 true none demo_out _ (by rfl)⟩,
   ⟨by decide, by decide,
     onfinish_validates_only.2.1 2 demo_out (by decide) (by decide)⟩,
   ⟨by decide, by rfl,
     onfinish_validates_only.2.2 [] ⟨0, .delta (some "assistant") (some "Hel")⟩
       [⟨"assistant", "Hel"⟩] (by decide) (by rfl)⟩⟩

/-- C7: a protocol error during a streamed merge is recoverable exactly
once per action: with the retry credit intact the first error aborts the
in-flight transfer (the write callback reports zero consumed bytes) and the
whole request is reissued from scratch on the context as already mutated by
the earlier successful merges; a second protocol error during the retried
request terminates the action, as does a first error when no credit
remains. -/
theorem retry_once (st : List Slot) (a1 : List (List DeltaRec))
    (rest : List (List (List DeltaRec))) (s1 : List Slot) (e : ProtoErr)
    (h1 : run_attempt st a1 = (s1, some e)) :
    (∀ len, onwrite_ret len false = 0) ∧
    drive st true (a1 :: rest) = drive s1 false rest ∧
    drive st false (a1 :: rest) = .fatal e s1 ∧
    (∀ a2 rest2 s2, run_attempt s1 a2 = (s2, none) →
      drive st true (a1 :: a2 :: rest2) = .ok s2) ∧
    (∀ a2 rest2 s2 e2, run_attempt s1 a2 = (s2, some e2) →
      drive st true (a1 :: a2 :: rest2) = .fatal e2 s2) := by
  refine ⟨fun len => rfl, ?_, ?_, ?_, ?_⟩
  · simp [drive, h1]
  · simp [drive, h1]
  · intro a2 rest2 s2 h2
    simp [drive, h1, h2]
  · intro a2 rest2 s2 e2 h2
    simp [drive, h1, h2]

/-- Witness for C7: a role-less first delta raises the protocol error, and
with no retry credit the action terminates with that diagnostic. -/
theorem retry_once_witness :
    run_attempt [] [[⟨0, .delta none (some "x")⟩]] =
      ([], some ProtoErr.never_received_role) ∧
    drive [] false ([[⟨0, .delta none (some "x")⟩]] :: []) =
      .fatal ProtoErr.never_received_role [] :=
  ⟨by rfl, (retry_once [] [[⟨0, .delta none (some "x")⟩]] [] []
    ProtoErr.never_received_role (by rfl)).2.2.1⟩

/-- Full characterization of the `kill_ctx` scan loop by the filtered match
list. -/
theorem kill_loop_spec (m : ProcEntry → Bool) :
    ∀ (tbl : List ProcEntry) (killed : Bool) (sig : List Nat) (warned : Bool),
    kill_loop m tbl killed sig warned =
      ⟨sig.reverse ++ (tbl.filter m).map (fun p => p.pid),
       warned || (killed && decide (1 ≤ (tbl.filter m).length)) ||
         decide (2 ≤ (tbl.filter m).length),
       killed || decide (1 ≤ (tbl.filter m).length)⟩ := by
  intro tbl
  induction tbl with
  | nil =>
    intro killed sig warned
    simp [kill_loop]
  | cons p rest ih =>
    intro killed sig warned
    by_cases hm : m p
    · have hfc : (p :: rest).filter m = p :: rest.filter m :=
        List.filter_cons_of_pos hm
      simp only [kill_loop, hm, if_pos, ih, hfc, KillResult.mk.injEq]
      refine ⟨by simp, ?_, ?_⟩
      · cases warned <;> cases killed <;> (rw [Bool.eq_iff_iff]; simp <;> omega)
      · cases killed <;> (rw [Bool.eq_iff_iff]; simp <;> omega)
    · have hfc : (p :: rest).filter m = rest.filter m :=
        List.filter_cons_of_neg hm
      simp only [kill_loop, hm, if_neg, ih, hfc]
      simp

/-- C8: over a process table, a single sibling process of the same
executable image holding the context file is exactly the one signaled and
the operation succeeds; with zero matches the operation fails; with two
matches both are signaled and the warning is raised; the current process
never matches, and a candidate whose executable image or file-descriptor
table cannot be inspected never matches (it alone is skipped). -/
theorem kill_ctx_spec (our_pid : Nat) (our_exe ctxfile : String)
    (tbl : List ProcEntry) :
    ((tbl.filter (ctx_match our_pid our_exe ctxfile)).length = 1 →
      (kill_ctx our_pid our_exe ctxfile tbl).signaled =
        (tbl.filter (ctx_match our_pid our_exe ctxfile)).map (fun p => p.pid) ∧
      (kill_ctx our_pid our_exe ctxfile tbl).ok = true ∧
      (kill_ctx our_pid our_exe ctxfile tbl).warned = false) ∧
    (tbl.filter (ctx_match our_pid our_exe ctxfile) = [] →
      (kill_ctx our_pid our_exe ctxfile tbl).ok = false) ∧
    ((tbl.filter (ctx_match our_pid our_exe ctxfile)).length = 2 →
      (kill_ctx our_pid our_exe ctxfile tbl).signaled =
        (tbl.filter (ctx_match our_pid our_exe ctxfile)).map (fun p => p.pid) ∧
      (kill_ctx our_pid our_exe ctxfile tbl).warned = true ∧
      (kill_ctx our_pid our_exe ctxfile tbl).ok = true) ∧
    (∀ p : ProcEntry, p.pid = our_pid →
      ctx_match our_pid our_exe ctxfile p = false) ∧
    (∀ p : ProcEntry, p.exe = none ∨ p.fds = none →
      ctx_match our_pid our_exe ctxfile p = false) := by
  have hk := kill_loop_spec (ctx_match our_pid our_exe ctxfile) tbl false [] false
  refine ⟨?_, ?_, ?_, ?_, ?_⟩
  · intro h1
    unfold kill_ctx
    rw [hk, h1]
    simp
  · intro h0
    unfold kill_ctx
    rw [hk, h0]
    simp
  · intro h2
    unfold kill_ctx
    rw [hk, h2]
    simp
  · intro p hp
    simp [ctx_match, hp]
  · intro p hp
    obtain ⟨pid, exe, fds⟩ := p
    cases hp with
    | inl h =>
      simp at h
      subst h
      simp [ctx_match]
    | inr h =>
      simp at h
      subst h
      cases exe with
      | none => simp [ctx_match]
      | some e => simp [ctx_match]

/-- Witness for C8 on the demonstration tables: one holder is signaled and
the call succeeds; our own pid and the broken candidate never match; a
table with no matches fails; a table with two holders signals both and
warns. -/
theorem kill_ctx_spec_witness :
    ((demo_tbl.filter (ctx_match 1 "llmq" "/ctx")).length = 1 ∧
      (kill_ctx 1 "llmq" "/ctx" demo_tbl).signaled =
        (demo_tbl.filter (ctx_match 1 "llmq" "/ctx")).map (fun p => p.pid) ∧
      (kill_ctx 1 "llmq" "/ctx" demo_tbl).ok = true ∧
      (kill_ctx 1 "llmq" "/ctx" demo_tbl).warned = false) ∧
    ([(⟨1, some "llmq", some ["/other"]⟩ : ProcEntry)].filter
        (ctx_match 1 "llmq" "/ctx") = [] ∧
      (kill_ctx 1 "llmq" "/ctx" [⟨1, some "llmq", some ["/other"]⟩]).ok = false) ∧
    ((demo_tbl2.filter (ctx_match 1 "llmq" "/ctx")).length = 2 ∧
      (kill_ctx 1 "llmq" "/ctx" demo_tbl2).signaled =
        (demo_tbl2.filter (ctx_match 1 "llmq" "/ctx")).map (fun p => p.pid) ∧
      (kill_ctx 1 "llmq" "/ctx" demo_tbl2).warned = true ∧
      (kill_ctx 1 "llmq" "/ctx" demo_tbl2).ok = true) :=
  ⟨⟨by decide, (kill_ctx_spec 1 "llmq" "/ctx" demo_tbl).1 (by decide)⟩,
   ⟨by decide, (kill_ctx_spec 1 "llmq" "/ctx"
      [⟨1, some "llmq", some ["/other"]⟩]).2.1 (by decide)⟩,
   ⟨by decide, (kill_ctx_spec 1 "llmq" "/ctx" demo_tbl2).2.2.1 (by decide)⟩⟩

end Llmq

/-!
The `static_assert` vectors of `find_json` in `src/plugins/gpt.cc`,
checked against the embedding by evaluation.
-/

example : Llmq.find_json "".toList = none := by decide
example : Llmq.find_json "\x7b\x7d".toList = some "\x7b\x7d".toList := by decide
example : Llmq.find_json " \x7b\x7d".toList = some "\x7b\x7d".toList := by decide
example : Llmq.find_json "foo: \x7b\x7d".toList = some "\x7b\x7d".toList := by decide
example : Llmq.find_json " foo: \x7b\x7d".toList = some "\x7b\x7d".toList := by decide
example : Llmq.find_json " foo: \x7b\x7d  bar ".toList = some "\x7b\x7d".toList := by
  decide
example :
    Llmq.find_json " foo: \x7b\x22a\x22: \x22b: \x7b\x22\x7d  bar ".toList =
      some "\x7b\x22a\x22: \x22b: \x7b\x22\x7d".toList := by decide
example :
    Llmq.find_json " foo: \x7b\x22a\x22: \x22b: \x7d\x22\x7d  bar ".toList =
      some "\x7b\x22a\x22: \x22b: \x7d\x22\x7d".toList := by decide
